import Mathlib

/-!
Verification of the streaming chunk classifier, JSON completer and outbound
dispatcher of `ai_agent_handler.py` (class `AIAgentEventHandler`).

The Python code is shallowly embedded: every method is translated into a pure
Lean function over `String` / `List Char`, with emitted stream chunks made
explicit as returned lists.  The Python names are kept wherever Lean allows;
the buffer arguments named `accumulated_partial_text` / `accumulated_partial_json`
in the source are rendered here as `accumulated_pending_text` /
`accumulated_pending_json`.
-/

namespace AIAgentHandler

/-! ## Embedding of Python `json.loads` as a validity recognizer

`try_complete_json` only observes whether `json.loads` succeeds or raises
`JSONDecodeError`; we embed the recognizer of CPython's `json` module with its
default options: values are objects, arrays, strings, numbers, `true`, `false`,
`null`, and the non-standard constants `NaN`, `Infinity`, `-Infinity`;
whitespace is space, tab, newline, carriage return; strings are double-quoted
with the JSON escapes (including `\uXXXX`) and reject raw control characters;
numbers follow the regex `-?(0|[1-9][0-9]*)(\.[0-9]+)?([eE][+-]?[0-9]+)?` with
greedy matching.  The parser consumes one value and returns the remaining
characters; `json_loads_ok` additionally requires that only whitespace remains,
exactly as `json.loads` does. -/

/-- Whitespace characters skipped by Python's json scanner. -/
def jsonWs (c : Char) : Bool :=
  c = ' ' || c = '\t' || c = '\n' || c = '\r'

/-- Skip leading json whitespace. -/
def skipJsonWs : List Char → List Char
  | [] => []
  | c :: cs => if jsonWs c then skipJsonWs cs else c :: cs

/-- Is the character one of the hex digits accepted after a string escape. -/
def isHexChar (c : Char) : Bool :=
  c.isDigit || ('a' ≤ c && c ≤ 'f') || ('A' ≤ c && c ≤ 'F')

/-- Scan the body of a json string after the opening quote; returns the
characters after the closing quote, or `none` on a malformed string.
Mirrors Python's `py_scanstring` with `strict=True` (raw control characters
are rejected; lone surrogate escapes are accepted). -/
def parseStringBody : List Char → Option (List Char)
  | [] => none
  | c :: cs =>
    if c = '"' then some cs
    else if c = '\\' then
      match cs with
      | [] => none
      | e :: cs2 =>
        if e = '"' || e = '\\' || e = '/' || e = 'b' || e = 'f' || e = 'n'
            || e = 'r' || e = 't' then
          parseStringBody cs2
        else if e = 'u' then
          match cs2 with
          | h1 :: h2 :: h3 :: h4 :: cs3 =>
            if isHexChar h1 && isHexChar h2 && isHexChar h3 && isHexChar h4 then
              parseStringBody cs3
            else none
          | _ => none
        else none
    else if c.val < 32 then none
    else parseStringBody cs

/-- Consume a maximal run of decimal digits. -/
def takeDigits : List Char → List Char
  | [] => []
  | c :: cs => if c.isDigit then takeDigits cs else c :: cs

/-- Integer part of the json number regex: `0|[1-9][0-9]*`. -/
def parseIntPart : List Char → Option (List Char)
  | [] => none
  | c :: cs =>
    if c = '0' then some cs
    else if c.isDigit then some (takeDigits cs)
    else none

/-- Optional fraction group `\.[0-9]+`; on no match the input is returned
unchanged (the group simply does not participate). -/
def parseFrac : List Char → List Char
  | '.' :: c :: rest => if c.isDigit then takeDigits rest else '.' :: c :: rest
  | cs => cs

/-- Helper for the exponent group: after `e`/`E` and an optional sign, at
least one digit is required, otherwise the whole group fails and the original
input is returned. -/
def parseExpDigits (original : List Char) : List Char → List Char
  | [] => original
  | c :: rest => if c.isDigit then takeDigits rest else original

/-- Optional exponent group `[eE][+-]?[0-9]+`; on no match the input is
returned unchanged. -/
def parseExp (cs : List Char) : List Char :=
  match cs with
  | [] => cs
  | e :: rest =>
    if e = 'e' || e = 'E' then
      match rest with
      | [] => cs
      | s :: rest2 =>
        if s = '+' || s = '-' then parseExpDigits cs rest2
        else parseExpDigits cs rest
    else cs

/-- Json number at the current position, greedy as the scanner's regex. -/
def parseNumber (cs : List Char) : Option (List Char) :=
  let afterInt :=
    match cs with
    | '-' :: rest => parseIntPart rest
    | _ => parseIntPart cs
  match afterInt with
  | none => none
  | some r => some (parseExp (parseFrac r))

/-- The three recursive scanners of the json grammar, merged into one
fuel-indexed function so that recursion is structural on the fuel:
`value` scans one json value, `members` scans the members of a non-empty
object after the opening brace (and leading whitespace), `elems` scans the
elements of a non-empty array after the opening bracket. -/
inductive ScanMode where
  | value
  | members
  | elems

/-- Scan in the given mode starting at the current character (no leading
whitespace).  The fuel bounds the number of recursive steps; scanning any
input of length `n` takes at most `n + 1` fuel, since every step that burns
fuel consumes at least one input character, except descending into an object
or array, which costs one extra step paid for by that structure's closing
character. -/
def scanJson : Nat → ScanMode → List Char → Option (List Char)
  | 0, _, _ => none
  | fuel + 1, ScanMode.value, cs =>
    match cs with
    | [] => none
    | '"' :: rest => parseStringBody rest
    | '{' :: rest =>
      match skipJsonWs rest with
      | '}' :: r => some r
      | cs2 => scanJson fuel ScanMode.members cs2
    | '[' :: rest =>
      match skipJsonWs rest with
      | ']' :: r => some r
      | cs2 => scanJson fuel ScanMode.elems cs2
    | 'n' :: 'u' :: 'l' :: 'l' :: rest => some rest
    | 't' :: 'r' :: 'u' :: 'e' :: rest => some rest
    | 'f' :: 'a' :: 'l' :: 's' :: 'e' :: rest => some rest
    | 'N' :: 'a' :: 'N' :: rest => some rest
    | 'I' :: 'n' :: 'f' :: 'i' :: 'n' :: 'i' :: 't' :: 'y' :: rest => some rest
    | '-' :: 'I' :: 'n' :: 'f' :: 'i' :: 'n' :: 'i' :: 't' :: 'y' :: rest => some rest
    | _ => parseNumber cs
  | fuel + 1, ScanMode.members, cs =>
    match cs with
    | '"' :: rest =>
      match parseStringBody rest with
      | none => none
      | some afterKey =>
        match skipJsonWs afterKey with
        | ':' :: afterColon =>
          match scanJson fuel ScanMode.value (skipJsonWs afterColon) with
          | none => none
          | some afterVal =>
            match skipJsonWs afterVal with
            | ',' :: afterComma => scanJson fuel ScanMode.members (skipJsonWs afterComma)
            | '}' :: r => some r
            | _ => none
        | _ => none
    | _ => none
  | fuel + 1, ScanMode.elems, cs =>
    match scanJson fuel ScanMode.value cs with
    | none => none
    | some afterVal =>
      match skipJsonWs afterVal with
      | ',' :: afterComma => scanJson fuel ScanMode.elems (skipJsonWs afterComma)
      | ']' :: r => some r
      | _ => none

/-- Embedding of Python's `json.loads(s)` succeeding: skip leading whitespace,
scan one value, and require that only whitespace remains. -/
def json_loads_ok (s : String) : Bool :=
  match scanJson (2 * s.length + 2) ScanMode.value (skipJsonWs s.data) with
  | some rest => (skipJsonWs rest).isEmpty
  | none => false

/-! ## `try_complete_json` -/

/-- The fixed candidate closing suffixes tried by `try_complete_json`, in
source order (the duplicate entry is preserved). -/
def possible_endings : List String :=
  ["\x7d", "]", "\x7d", "\x7d]", "\x7d]\x7d", "\x7d\x7d"]

/-- The `for ending in possible_endings` loop of `try_complete_json`: return
the first ending whose append makes the accumulated string parse, else the
empty string. -/
def tryEndings (accumulated : String) : List String → String
  | [] => ""
  | e :: rest =>
    if json_loads_ok (accumulated ++ e) then e else tryEndings accumulated rest

/-- Embedding of `AIAgentEventHandler.try_complete_json`: if the accumulated
string already parses, return it unchanged; otherwise return the first
candidate ending that completes it, or the empty string. -/
def try_complete_json (accumulated : String) : String :=
  if json_loads_ok accumulated then accumulated
  else tryEndings accumulated possible_endings

/-! ## Chunks and the outbound dispatcher -/

/-- One chunk handed to `send_data_to_stream` by the classifier/completer:
the keyword arguments of the call. -/
structure Chunk where
  index : Nat
  data_format : String
  chunk_delta : String
  is_message_end : Bool
deriving DecidableEq, Repr

/-- The run object read by the dispatcher: `run["thread"]["thread_uuid"]`,
`run["run_uuid"]`, `run["updated_by"]`. -/
structure Run where
  thread_uuid : String
  run_uuid : String
  updated_by : String
deriving DecidableEq, Repr

/-- The envelope `send_data_to_stream` serializes and hands to the external
delivery interface (plus the connection it is routed to). -/
structure StreamEnvelope where
  connection_id : String
  message_group_id : String
  data_format : String
  index : Nat
  chunk_delta : String
  is_message_end : Bool
deriving DecidableEq, Repr

/-- Embedding of `AIAgentEventHandler.send_data_to_stream`: returns the
delivery performed, or `none` when the guard `self._connection_id is None or
self._run is None` makes the method return without doing anything.  The
method reads but never writes handler state, so no state is threaded. -/
def send_data_to_stream (connection_id : Option String) (run : Option Run)
    (index : Nat) (data_format : String) (chunk_delta : String)
    (is_message_end : Bool) : Option StreamEnvelope :=
  match connection_id, run with
  | some cid, some r =>
    some ⟨cid, cid ++ "-" ++ r.run_uuid, data_format, index, chunk_delta,
      is_message_end⟩
  | _, _ => none

/-- The fire-and-forget invocation built by `invoke_async_funct`: the function
name plus the params it augments from the bound run. -/
structure AsyncInvocation where
  function_name : String
  thread_uuid : String
  run_uuid : String
  updated_by : String
deriving DecidableEq, Repr

/-- Embedding of `AIAgentEventHandler.invoke_async_funct`: `none` when no run
is bound (the method returns immediately), otherwise the dispatched
invocation with the params augmented from the run. -/
def invoke_async_funct (run : Option Run) (function_name : String) :
    Option AsyncInvocation :=
  match run with
  | none => none
  | some r => some ⟨function_name, r.thread_uuid, r.run_uuid, r.updated_by⟩

/-! ## `process_and_send_json` -/

/-- Embedding of `AIAgentEventHandler.process_and_send_json`: returns the
chunks sent (as `send_data_to_stream` keyword arguments) together with the
returned triple `(index, complete_accumulated_json, accumulated_partial_json)`
(the last buffer is named `accumulated_pending_json` here). -/
def process_and_send_json (index : Nat) (complete_accumulated_json : String)
    (accumulated_pending_json : String) (data_format : String) :
    List Chunk × Nat × String × String :=
  let combined_json := complete_accumulated_json ++ accumulated_pending_json
  let ending := try_complete_json combined_json
  if ending ≠ "" then
    ([⟨index, data_format, accumulated_pending_json, false⟩],
      index + 1, complete_accumulated_json ++ accumulated_pending_json, "")
  else
    ([], index, complete_accumulated_json, accumulated_pending_json)

/-! ## `process_text_content` -/

/-- Embedding of Python's `str.find(c)` on a list of characters: index of the
first occurrence, or `none` (Python returns `-1`). -/
def charFindIdx (c : Char) : List Char → Option Nat
  | [] => none
  | a :: rest => if a = c then some 0 else (charFindIdx c rest).map (· + 1)

/-- The `while "<" in current_text` loop of `process_text_content`, which
splits the buffer into the `xml_parts` list.  The fuel bounds the number of
iterations; every iteration removes at least one character (the span up to and
including the first `>` at or after the first `<`), so `length + 1` fuel
always suffices and the fallback case is unreachable from
`process_text_content`. -/
def splitXmlGo : Nat → List Char → List (List Char)
  | 0, current_text => if current_text.isEmpty then [] else [current_text]
  | fuel + 1, current_text =>
    match charFindIdx '<' current_text with
    | none => if current_text.isEmpty then [] else [current_text]
    | some start_idx =>
      let head_text := current_text.take start_idx
      let from_tag := current_text.drop start_idx
      match charFindIdx '>' from_tag with
      | none => (if 0 < start_idx then [head_text] else []) ++ [from_tag]
      | some j =>
        (if 0 < start_idx then [head_text] else []) ++
          from_tag.take (j + 1) :: splitXmlGo fuel (from_tag.drop (j + 1))

/-- The `for part in xml_parts` emission loop: each part is sent at the next
index, tagged `"xml"` when it contains both `<` and `>`, else `"text"`. -/
def chunksFromParts (index : Nat) : List (List Char) → List Chunk
  | [] => []
  | part :: rest =>
    ⟨index, if '<' ∈ part ∧ '>' ∈ part then "xml" else "text",
      String.mk part, false⟩ :: chunksFromParts (index + 1) rest

/-- Embedding of `AIAgentEventHandler.process_text_content`: returns the
chunks sent together with the returned pair
`(index, accumulated_partial_text)` (buffer named `accumulated_pending_text`
here).  `accumulated_text_buffer` is
`int(self.setting.get("accumulated_partial_text_buffer", "10"))`. -/
def process_text_content (accumulated_text_buffer : Nat) (index : Nat)
    (accumulated_pending_text : String) (output_format : String) :
    List Chunk × Nat × String :=
  let cs := accumulated_pending_text.data
  if '<' ∈ cs then
    -- output_format is set to "xml" here
    if '>' ∈ cs ∨ 500 < cs.length then
      if '>' ∉ cs ∧ 500 < cs.length then
        -- no closing tag within the buffer limit: fall back to "text"
        ([⟨index, "text", accumulated_pending_text, false⟩], index + 1, "")
      else
        let xml_parts := splitXmlGo (cs.length + 1) cs
        (chunksFromParts index xml_parts, index + xml_parts.length, "")
    else
      ([], index, accumulated_pending_text)
  else
    if accumulated_text_buffer ≤ cs.length then
      ([⟨index, output_format, accumulated_pending_text, false⟩],
        index + 1, "")
    else
      ([], index, accumulated_pending_text)

/-! ## `get_function` -/

/-- One entry of `self.mcp_http_clients`: the server name, the client object
(identified here by the server name) and the advertised tool names. -/
structure McpHttpClientEntry where
  name : String
  tools : List String
deriving DecidableEq, Repr

/-- The callable returned by `get_function` for a remote tool: a closure that
calls the found client's tool with the requested name. -/
structure McpToolHandle where
  client_name : String
  function_name : String
deriving DecidableEq, Repr

/-- Observable side effects of `get_function`.  `moduleCacheFetch` records a
module-cache download; this variant of the handler has no local-module path at
all, so no code path produces it. -/
inductive FunctEffect where
  | logError (msg : String)
  | moduleCacheFetch (module_name : String)
deriving DecidableEq, Repr

/-- Embedding of `AIAgentEventHandler.get_function`: find the first client
advertising the name and return the calling closure; otherwise raise
`Exception(f"Function {function_name} not found in MCP tools")`, which the
`except` block logs and re-raises (`Except.error` models the re-raised
exception). -/
def get_function (mcp_http_clients : List McpHttpClientEntry)
    (function_name : String) :
    Except String McpToolHandle × List FunctEffect :=
  match mcp_http_clients.find? (fun client => client.tools.contains function_name) with
  | some client => (Except.ok ⟨client.name, function_name⟩, [])
  | none =>
    (Except.error ("Function " ++ function_name ++ " not found in MCP tools"),
      [FunctEffect.logError ("Function " ++ function_name ++ " not found in MCP tools")])

/-! ## Sequencing of classifier/completer calls -/

/-- One call of the agent loop into the classifier/completer, with all
arguments other than the threaded index. -/
inductive HandlerCall where
  | textContent (accumulated_text_buffer : Nat)
      (accumulated_pending_text : String) (output_format : String)
  | jsonContent (complete_accumulated_json : String)
      (accumulated_pending_json : String) (data_format : String)

/-- Perform one classifier/completer call at the given index, keeping the
emitted chunks and the returned index. -/
def runCall (index : Nat) : HandlerCall → List Chunk × Nat
  | HandlerCall.textContent buf_threshold buf fmt =>
    let r := process_text_content buf_threshold index buf fmt
    (r.1, r.2.1)
  | HandlerCall.jsonContent complete_json pending_json fmt =>
    let r := process_and_send_json index complete_json pending_json fmt
    (r.1, r.2.1)

/-- Perform a sequence of classifier/completer calls, threading the returned
index into the next call, collecting all emitted chunks in order. -/
def runCalls (index : Nat) : List HandlerCall → List Chunk × Nat
  | [] => ([], index)
  | call :: rest =>
    let r := runCall index call
    let rr := runCalls r.2 rest
    (r.1 ++ rr.1, rr.2)

/-! ## Helper lemmas about the ending loop of `try_complete_json` -/

/-- Soundness of the ending loop: a non-empty result is an ending whose
append makes the accumulated string parse. -/
theorem tryEndings_sound (p : String) (l : List String)
    (h : tryEndings p l ≠ "") :
    json_loads_ok (p ++ tryEndings p l) = true := by
  induction l with
  | nil => simp [tryEndings] at h
  | cons e rest ih =>
    by_cases he : json_loads_ok (p ++ e) = true
    · simp [tryEndings, he]
    · simp only [tryEndings, if_neg he] at h ⊢
      exact ih h

/-- The ending loop returns the first candidate that completes the
accumulated string, and the empty string when none does. -/
theorem tryEndings_eq_find (p : String) (l : List String) :
    tryEndings p l = ((l.find? fun e => json_loads_ok (p ++ e)).getD "") := by
  induction l with
  | nil => rfl
  | cons e rest ih =>
    by_cases he : json_loads_ok (p ++ e) = true
    · simp [tryEndings, he]
    · simp only [Bool.not_eq_true] at he
      simp [tryEndings, he, ih]

/-- C1 (counterexample): the claim fails when the prefix itself is already
valid JSON.  For `p = "{}"`, `try_complete_json` returns `p` itself, which is
non-empty, yet `p + try_complete_json(p) = "{}{}"` does not parse as JSON. -/
theorem try_complete_json_c1_counterexample :
    try_complete_json "\x7b\x7d" = "\x7b\x7d" ∧
    try_complete_json "\x7b\x7d" ≠ "" ∧
    json_loads_ok ("\x7b\x7d" ++ try_complete_json "\x7b\x7d") = false := by
  decide

/-- C1 (amended): if the prefix `p` already parses as valid JSON,
`try_complete_json` returns `p` unchanged; if `p` does not parse and
`try_complete_json(p)` is non-empty, then `p + try_complete_json(p)` parses
as JSON. -/
theorem try_complete_json_c1_completion (p : String) :
    (json_loads_ok p = true → try_complete_json p = p) ∧
    (json_loads_ok p = false → try_complete_json p ≠ "" →
      json_loads_ok (p ++ try_complete_json p) = true) := by
  constructor
  · intro h
    simp [try_complete_json, h]
  · intro h hne
    have hdef : try_complete_json p = tryEndings p possible_endings := by
      simp [try_complete_json, h]
    rw [hdef] at hne ⊢
    exact tryEndings_sound p possible_endings hne

/-- Witness for C1 (amended) at the concrete prefix `"[1"`. -/
theorem try_complete_json_c1_completion_witness :
    json_loads_ok ("[1" ++ try_complete_json "[1") = true :=
  (try_complete_json_c1_completion "[1").2 (by decide) (by decide)

/-- C2: `process_and_send_json` flushes exactly one chunk carrying the
pending buffer when the combined JSON completes (returning the advanced
index, the extended complete buffer and an empty pending buffer), leaves
everything unchanged otherwise, and in particular flushes for
`complete_so_far = ""`, `partial_pending = "{\"a\": 1"`. -/
theorem process_and_send_json_c2 (i : Nat) (c q f : String) :
    (try_complete_json (c ++ q) ≠ "" →
      process_and_send_json i c q f = ([⟨i, f, q, false⟩], i + 1, c ++ q, "")) ∧
    (try_complete_json (c ++ q) = "" →
      process_and_send_json i c q f = ([], i, c, q)) ∧
    process_and_send_json i "" "\x7b\"a\": 1" f =
      ([⟨i, f, "\x7b\"a\": 1", false⟩], i + 1, "\x7b\"a\": 1", "") := by
  refine ⟨fun h => ?_, fun h => ?_, ?_⟩
  · simp [process_and_send_json, h]
  · simp [process_and_send_json, h]
  · rfl

/-- Witness for C2 at the concrete JSON-assembly scenario of the spec. -/
theorem process_and_send_json_c2_witness :
    process_and_send_json 0 "" "\x7b\"a\": 1" "json" =
      ([⟨0, "json", "\x7b\"a\": 1", false⟩], 1, "\x7b\"a\": 1", "") :=
  (process_and_send_json_c2 0 "" "\x7b\"a\": 1" "json").1 (by decide)

/-- C3: on a prefix that does not parse as JSON, `try_complete_json` tries
the fixed candidate suffixes in source order and returns the first one that
completes the prefix, or the empty string when none does (the function is
total, so it never raises). -/
theorem try_complete_json_c3_first_candidate (p : String)
    (h : json_loads_ok p = false) :
    possible_endings = ["\x7d", "]", "\x7d", "\x7d]", "\x7d]\x7d", "\x7d\x7d"] ∧
    try_complete_json p =
      ((possible_endings.find? fun e => json_loads_ok (p ++ e)).getD "") := by
  refine ⟨rfl, ?_⟩
  simp only [try_complete_json, h, Bool.false_eq_true, if_false]
  exact tryEndings_eq_find p possible_endings

/-- Witness for C3 at the concrete prefix `"[1"` (completed by `"]"`). -/
theorem try_complete_json_c3_witness :
    try_complete_json "[1" =
      ((possible_endings.find? fun e => json_loads_ok ("[1" ++ e)).getD "") :=
  (try_complete_json_c3_first_candidate "[1" (by decide)).2

/-! ## Helper lemmas about `charFindIdx` and `splitXmlGo` -/

/-- A failed find means the character does not occur. -/
theorem charFindIdx_none {c : Char} : ∀ {l : List Char},
    charFindIdx c l = none → c ∉ l
  | [], _ => by simp
  | a :: rest, h => by
    by_cases ha : a = c
    · simp [charFindIdx, ha] at h
    · simp only [charFindIdx, if_neg ha, Option.map_eq_none'] at h
      have hrest := charFindIdx_none h
      simp only [List.mem_cons, not_or]
      exact ⟨fun hc => ha hc.symm, hrest⟩

/-- The found index is within the list. -/
theorem charFindIdx_some_lt {c : Char} : ∀ {l : List Char} {i : Nat},
    charFindIdx c l = some i → i < l.length
  | a :: rest, i, h => by
    by_cases ha : a = c
    · simp [charFindIdx, ha] at h
      simp [← h]
    · simp only [charFindIdx, if_neg ha, Option.map_eq_some'] at h
      obtain ⟨j, hj, hij⟩ := h
      have := charFindIdx_some_lt hj
      simp only [List.length_cons]
      omega

/-- Dropping to the found index exposes the character at the head. -/
theorem charFindIdx_some_drop {c : Char} : ∀ {l : List Char} {i : Nat},
    charFindIdx c l = some i → ∃ t, l.drop i = c :: t
  | a :: rest, i, h => by
    by_cases ha : a = c
    · simp [charFindIdx, ha] at h
      exact ⟨rest, by simp [← h, ha]⟩
    · simp only [charFindIdx, if_neg ha, Option.map_eq_some'] at h
      obtain ⟨j, hj, hij⟩ := h
      obtain ⟨t, ht⟩ := charFindIdx_some_drop hj
      exact ⟨t, by simp [← hij, ht]⟩

/-- The character does not occur strictly before the found index. -/
theorem charFindIdx_some_take {c : Char} : ∀ {l : List Char} {i : Nat},
    charFindIdx c l = some i → c ∉ l.take i
  | a :: rest, i, h => by
    by_cases ha : a = c
    · simp [charFindIdx, ha] at h
      simp [← h]
    · simp only [charFindIdx, if_neg ha, Option.map_eq_some'] at h
      obtain ⟨j, hj, hij⟩ := h
      have hrest := charFindIdx_some_take hj
      simp only [← hij, List.take_succ_cons, List.mem_cons, not_or]
      exact ⟨fun hc => ha hc.symm, hrest⟩

/-- Taking one past the found index ends exactly at the character. -/
theorem charFindIdx_some_take_succ {c : Char} : ∀ {l : List Char} {i : Nat},
    charFindIdx c l = some i → l.take (i + 1) = l.take i ++ [c]
  | a :: rest, i, h => by
    by_cases ha : a = c
    · simp [charFindIdx, ha] at h
      simp [← h, ha]
    · simp only [charFindIdx, if_neg ha, Option.map_eq_some'] at h
      obtain ⟨j, hj, hij⟩ := h
      have hrest := charFindIdx_some_take_succ hj
      simp [← hij, hrest]

/-- Concatenating the parts produced by the splitting loop restores the
buffer, for any fuel. -/
theorem splitXmlGo_flatten : ∀ (fuel : Nat) (cs : List Char),
    (splitXmlGo fuel cs).flatten = cs := by
  intro fuel
  induction fuel with
  | zero =>
    intro cs
    by_cases hcs : cs = []
    · subst hcs; rfl
    · simp [splitXmlGo, List.isEmpty_iff, hcs]
  | succ fuel ih =>
    intro cs
    cases hlt : charFindIdx '<' cs with
    | none =>
      by_cases hcs : cs = []
      · subst hcs; rfl
      · simp [splitXmlGo, hlt, List.isEmpty_iff, hcs]
    | some start_idx =>
      cases hgt : charFindIdx '>' (List.drop start_idx cs) with
      | none =>
        by_cases hpos : 0 < start_idx
        · simp only [splitXmlGo, hlt, hgt, if_pos hpos, List.singleton_append,
            List.flatten_cons, List.flatten_nil, List.append_nil]
          exact List.take_append_drop _ _
        · have h0 : start_idx = 0 := by omega
          subst h0
          rw [List.drop_zero] at hgt
          simp [splitXmlGo, hlt, hgt]
      | some j =>
        by_cases hpos : 0 < start_idx
        · simp only [splitXmlGo, hlt, hgt, if_pos hpos, List.singleton_append,
            List.flatten_cons, ih]
          rw [List.take_append_drop, List.take_append_drop]
        · have h0 : start_idx = 0 := by omega
          subst h0
          rw [List.drop_zero] at hgt
          simp only [splitXmlGo, hlt, hgt, Nat.lt_irrefl, if_false,
            List.nil_append, List.flatten_cons, ih, List.drop_zero]
          exact List.take_append_drop _ _

/-- With sufficient fuel, every part produced by the splitting loop that
contains both `<` and `>` is a complete tag span: it starts with `<` and ends
with `>`. -/
theorem splitXmlGo_parts : ∀ (fuel : Nat) (cs : List Char),
    cs.length < fuel →
    ∀ p ∈ splitXmlGo fuel cs, '<' ∈ p → '>' ∈ p →
      p.head? = some '<' ∧ p.getLast? = some '>'
  | 0, cs, hfuel => by omega
  | fuel + 1, cs, hfuel => by
    intro p hp hlt hgt
    cases hfind : charFindIdx '<' cs with
    | none =>
      simp only [splitXmlGo, hfind] at hp
      by_cases hcs : cs = []
      · simp [hcs] at hp
      · simp only [List.isEmpty_iff, hcs, if_false, List.mem_singleton] at hp
        subst hp
        exact absurd hlt (charFindIdx_none hfind)
    | some start_idx =>
      cases hfd : charFindIdx '>' (List.drop start_idx cs) with
      | none =>
        simp only [splitXmlGo, hfind, hfd, List.mem_append, List.mem_singleton] at hp
        rcases hp with hp | hp
        · have hmem : p ∈ [List.take start_idx cs] := by
            by_cases hpos : 0 < start_idx
            · simpa [if_pos hpos] using hp
            · simp [if_neg hpos] at hp
          simp only [List.mem_singleton] at hmem
          subst hmem
          exact absurd hlt (charFindIdx_some_take hfind)
        · subst hp
          exact absurd hgt (charFindIdx_none hfd)
      | some j =>
        simp only [splitXmlGo, hfind, hfd, List.mem_append, List.mem_cons] at hp
        rcases hp with hp | hp | hp
        · have hmem : p ∈ [List.take start_idx cs] := by
            by_cases hpos : 0 < start_idx
            · simpa [if_pos hpos] using hp
            · simp [if_neg hpos] at hp
          simp only [List.mem_singleton] at hmem
          subst hmem
          exact absurd hlt (charFindIdx_some_take hfind)
        · subst hp
          obtain ⟨t, ht⟩ := charFindIdx_some_drop hfind
          constructor
          · rw [ht, List.take_succ_cons]
            rfl
          · rw [charFindIdx_some_take_succ hfd]
            exact List.getLast?_concat _
        · have hstart := charFindIdx_some_lt hfind
          have hlen : (List.drop (j + 1) (List.drop start_idx cs)).length < fuel := by
            simp only [List.length_drop] at *
            omega
          exact splitXmlGo_parts fuel _ hlen p hp hlt hgt

/-! ## Helper lemmas about `chunksFromParts` -/

/-- One chunk is emitted per part. -/
theorem chunksFromParts_length : ∀ (i : Nat) (parts : List (List Char)),
    (chunksFromParts i parts).length = parts.length
  | _, [] => rfl
  | i, _ :: rest => by
    simp [chunksFromParts, chunksFromParts_length (i + 1) rest]

/-- The emitted chunk indices are consecutive from the starting index. -/
theorem chunksFromParts_indices : ∀ (i : Nat) (parts : List (List Char)),
    (chunksFromParts i parts).map Chunk.index = List.range' i parts.length
  | _, [] => rfl
  | i, _ :: rest => by
    simp [chunksFromParts, List.range'_succ, chunksFromParts_indices (i + 1) rest]

/-- The emitted chunk deltas are exactly the parts, in order. -/
theorem chunksFromParts_deltas : ∀ (i : Nat) (parts : List (List Char)),
    (chunksFromParts i parts).map (fun ch => ch.chunk_delta.data) = parts
  | _, [] => rfl
  | i, _ :: rest => by
    simp [chunksFromParts, chunksFromParts_deltas (i + 1) rest]

/-- Every emitted chunk carries some part as delta, tagged `"xml"` exactly
when the part contains both brackets. -/
theorem chunksFromParts_mem : ∀ {i : Nat} {parts : List (List Char)}
    {ch : Chunk}, ch ∈ chunksFromParts i parts →
    ∃ p ∈ parts,
      ch.data_format = (if '<' ∈ p ∧ '>' ∈ p then "xml" else "text") ∧
      ch.chunk_delta = String.mk p
  | i, part :: rest, ch, h => by
    simp only [chunksFromParts, List.mem_cons] at h
    rcases h with h | h
    · exact ⟨part, List.mem_cons_self part rest, by simp [h]⟩
    · obtain ⟨p, hp, hfmt⟩ := chunksFromParts_mem h
      exact ⟨p, List.mem_cons_of_mem part hp, hfmt⟩

/-- C4 (counterexample): the claim fails for buffers without `<`: the
length-threshold branch emits with the caller-supplied `output_format`, so
passing `output_format = "xml"` with a `<`-free buffer of length at least 10
emits a chunk tagged `"xml"` whose content does not start with `<`. -/
theorem process_text_content_c4_counterexample :
    (process_text_content 10 0 "0123456789" "xml").1 =
      [⟨0, "xml", "0123456789", false⟩] ∧
    ¬ ("0123456789".data.head? = some '<') := by
  decide

/-- C4 (amended): for every buffer that contains `<`, every chunk emitted by
`process_text_content` with the markup data_format `"xml"` has content that
starts with `<` and ends with `>`; in particular, the input `"abc<tag>def"`
fed in one call is split into `"abc"` (text), `"<tag>"` (xml), `"def"`
(text), so no emitted chunk contains a partial tag. -/
theorem process_text_content_c4_markup_atomicity
    (threshold i : Nat) (fmt s : String) (hs : '<' ∈ s.data) :
    (∀ ch ∈ (process_text_content threshold i s fmt).1,
      ch.data_format = "xml" →
        ch.chunk_delta.data.head? = some '<' ∧
        ch.chunk_delta.data.getLast? = some '>') ∧
    process_text_content threshold i "abc<tag>def" fmt =
      ([⟨i, "text", "abc", false⟩, ⟨i + 1, "xml", "<tag>", false⟩,
        ⟨i + 2, "text", "def", false⟩], i + 3, "") := by
  constructor
  · intro ch hch hfmt
    by_cases hbig : '>' ∈ s.data ∨ 500 < s.data.length
    · by_cases hfall : '>' ∉ s.data ∧ 500 < s.data.length
      · simp only [process_text_content, if_pos hs, if_pos hbig, if_pos hfall,
          List.mem_singleton] at hch
        rw [hch] at hfmt
        exact absurd hfmt (by exact (by decide : ("text" : String) ≠ "xml"))
      · simp only [process_text_content, if_pos hs, if_pos hbig,
          if_neg hfall] at hch
        obtain ⟨p, hp, hpfmt, hpdelta⟩ := chunksFromParts_mem hch
        by_cases hpin : '<' ∈ p ∧ '>' ∈ p
        · rw [if_pos hpin] at hpfmt
          have hhead := splitXmlGo_parts (s.data.length + 1) s.data
            (Nat.lt_succ_self _) p hp hpin.1 hpin.2
          rw [hpdelta]
          exact hhead
        · rw [if_neg hpin] at hpfmt
          rw [hpfmt] at hfmt
          exact absurd hfmt (by decide)
    · simp only [process_text_content, if_pos hs, if_neg hbig] at hch
      simp at hch
  · rfl

/-- Witness for C4 (amended) at the input `"abc<tag>def"`. -/
theorem process_text_content_c4_witness :
    process_text_content 10 0 "abc<tag>def" "text" =
      ([⟨0, "text", "abc", false⟩, ⟨0 + 1, "xml", "<tag>", false⟩,
        ⟨0 + 2, "text", "def", false⟩], 0 + 3, "") :=
  (process_text_content_c4_markup_atomicity 10 0 "text" "abc<tag>def"
    (by decide)).2

/-- C5: a buffer of more than 500 characters containing `<` but no `>` is
flushed by `process_text_content` as exactly one chunk, tagged `"text"`, with
the entire buffered content as delta; the buffer is cleared and the index
incremented by 1. -/
theorem process_text_content_c5_cap_fallback
    (threshold i : Nat) (fmt s : String)
    (h1 : '<' ∈ s.data) (h2 : '>' ∉ s.data) (h3 : 500 < s.length) :
    process_text_content threshold i s fmt =
      ([⟨i, "text", s, false⟩], i + 1, "") := by
  have h3' : 500 < s.data.length := h3
  simp only [process_text_content, if_pos h1, if_pos (Or.inr h3'),
    if_pos (And.intro h2 h3')]

/-- A 501-character buffer containing `<` and no `>`. -/
def capDemoText : String := String.mk ('<' :: List.replicate 500 'a')

/-- Witness for C5 at a concrete 501-character buffer. -/
theorem process_text_content_c5_witness :
    process_text_content 10 0 capDemoText "text" =
      ([⟨0, "text", capDemoText, false⟩], 0 + 1, "") :=
  process_text_content_c5_cap_fallback 10 0 "text" capDemoText
    (List.mem_cons_self '<' (List.replicate 500 'a'))
    (by
      intro h
      rcases List.mem_cons.mp h with h | h
      · exact absurd h (by decide)
      · exact absurd (List.eq_of_mem_replicate h) (by decide))
    (by
      show 500 < ('<' :: List.replicate 500 'a').length
      rw [List.length_cons, List.length_replicate]
      exact Nat.lt_succ_self 500)

/-- C6: with the default buffer threshold of 10, a buffer without `<` of
length at least 10 is flushed by `process_text_content` as exactly one chunk
carrying the whole buffer (at the caller-supplied format), clearing the
buffer and incrementing the index; a shorter buffer (including the empty
buffer) emits nothing and leaves the buffer and index unchanged. -/
theorem process_text_content_c6_threshold (i : Nat) (fmt s : String)
    (hs : '<' ∉ s.data) :
    (10 ≤ s.length →
      process_text_content 10 i s fmt = ([⟨i, fmt, s, false⟩], i + 1, "")) ∧
    (s.length < 10 →
      process_text_content 10 i s fmt = ([], i, s)) := by
  constructor
  · intro hlen
    have hlen' : 10 ≤ s.data.length := hlen
    simp only [process_text_content, if_neg hs, if_pos hlen']
  · intro hlen
    have hlen' : ¬ (10 ≤ s.data.length) := by
      simp only [String.length] at hlen
      omega
    simp only [process_text_content, if_neg hs, if_neg hlen']

/-- Witness for C6 at the ten-character buffer `"1234567890"`. -/
theorem process_text_content_c6_witness :
    process_text_content 10 0 "1234567890" "text" =
      ([⟨0, "text", "1234567890", false⟩], 0 + 1, "") :=
  (process_text_content_c6_threshold 0 "text" "1234567890" (by decide)).1
    (by decide)

/-- C10: for every buffer that contains `<` and either contains `>` or is
longer than 500 characters, the concatenation of the `chunk_delta` contents
of the chunks emitted by `process_text_content`, in emission order, is
exactly the input buffer, and the returned buffer is empty. -/
theorem process_text_content_c10_content_preservation
    (threshold i : Nat) (fmt s : String) (h1 : '<' ∈ s.data)
    (h2 : '>' ∈ s.data ∨ 500 < s.length) :
    ((process_text_content threshold i s fmt).1.map
        (fun ch => ch.chunk_delta.data)).flatten = s.data ∧
    (process_text_content threshold i s fmt).2.2 = "" := by
  have h2' : '>' ∈ s.data ∨ 500 < s.data.length := h2
  by_cases hfall : '>' ∉ s.data ∧ 500 < s.data.length
  · simp only [process_text_content, if_pos h1, if_pos h2', if_pos hfall]
    simp
  · simp only [process_text_content, if_pos h1, if_pos h2', if_neg hfall]
    refine ⟨?_, trivial⟩
    rw [chunksFromParts_deltas]
    exact splitXmlGo_flatten _ _

/-- Witness for C10 at the buffer `"a<b>c"`. -/
theorem process_text_content_c10_witness :
    ((process_text_content 10 0 "a<b>c" "text").1.map
        (fun ch => ch.chunk_delta.data)).flatten = "a<b>c".data ∧
    (process_text_content 10 0 "a<b>c" "text").2.2 = "" :=
  process_text_content_c10_content_preservation 10 0 "text" "a<b>c"
    (by decide) (Or.inl (by decide))

/-! ## Index sequencing lemmas -/

/-- `process_text_content` emits its chunks at consecutive indices starting
at the given index and returns the index advanced by the number of chunks. -/
theorem process_text_content_indices (threshold i : Nat) (s fmt : String) :
    (process_text_content threshold i s fmt).1.map Chunk.index =
      List.range' i (process_text_content threshold i s fmt).1.length ∧
    (process_text_content threshold i s fmt).2.1 =
      i + (process_text_content threshold i s fmt).1.length := by
  by_cases h1 : '<' ∈ s.data
  · by_cases h2 : '>' ∈ s.data ∨ 500 < s.data.length
    · by_cases h3 : '>' ∉ s.data ∧ 500 < s.data.length
      · simp only [process_text_content, if_pos h1, if_pos h2, if_pos h3]
        simp
      · simp only [process_text_content, if_pos h1, if_pos h2, if_neg h3]
        refine ⟨?_, ?_⟩
        · rw [chunksFromParts_indices, chunksFromParts_length]
        · rw [chunksFromParts_length]
    · simp only [process_text_content, if_pos h1, if_neg h2]
      simp
  · by_cases h4 : threshold ≤ s.data.length
    · simp only [process_text_content, if_neg h1, if_pos h4]
      simp
    · simp only [process_text_content, if_neg h1, if_neg h4]
      simp

/-- `process_and_send_json` emits its chunks at consecutive indices starting
at the given index and returns the index advanced by the number of chunks. -/
theorem process_and_send_json_indices (i : Nat) (c q fmt : String) :
    (process_and_send_json i c q fmt).1.map Chunk.index =
      List.range' i (process_and_send_json i c q fmt).1.length ∧
    (process_and_send_json i c q fmt).2.1 =
      i + (process_and_send_json i c q fmt).1.length := by
  by_cases h : try_complete_json (c ++ q) = ""
  · simp [process_and_send_json, h]
  · simp [process_and_send_json, h]

/-- One classifier/completer call emits consecutively indexed chunks and
advances the index by their number. -/
theorem runCall_indices (i : Nat) (call : HandlerCall) :
    (runCall i call).1.map Chunk.index =
      List.range' i (runCall i call).1.length ∧
    (runCall i call).2 = i + (runCall i call).1.length := by
  cases call with
  | textContent threshold buf fmt =>
    exact process_text_content_indices threshold i buf fmt
  | jsonContent c q fmt =>
    exact process_and_send_json_indices i c q fmt

/-- Threading the returned index through a sequence of calls yields chunks at
consecutive indices from the starting index, with the final index advanced by
the total number of chunks. -/
theorem runCalls_indices (calls : List HandlerCall) : ∀ (i : Nat),
    (runCalls i calls).1.map Chunk.index =
      List.range' i (runCalls i calls).1.length ∧
    (runCalls i calls).2 = i + (runCalls i calls).1.length := by
  induction calls with
  | nil => intro i; simp [runCalls]
  | cons call rest ih =>
    intro i
    obtain ⟨hmap1, hidx1⟩ := runCall_indices i call
    obtain ⟨hmap2, hidx2⟩ := ih (runCall i call).2
    simp only [runCalls, List.map_append, List.length_append]
    constructor
    · rw [hmap1, hmap2, hidx1, List.range'_append_1, Nat.add_comm]
    · rw [hidx2, hidx1]
      omega

/-- C7: each call of `process_text_content` or `process_and_send_json` that
emits k chunks emits them at the consecutive indices i, ..., i + k - 1 and
returns i + k; threading the returned index through any sequence of such
calls starting from 0 yields chunk indices forming exactly the gap-free
sequence 0, 1, ..., and `send_data_to_stream` forwards the index it is given
into the delivered envelope unmodified. -/
theorem handler_c7_consecutive_indices :
    (∀ (threshold i : Nat) (s fmt : String),
      (process_text_content threshold i s fmt).1.map Chunk.index =
        List.range' i (process_text_content threshold i s fmt).1.length ∧
      (process_text_content threshold i s fmt).2.1 =
        i + (process_text_content threshold i s fmt).1.length) ∧
    (∀ (i : Nat) (c q fmt : String),
      (process_and_send_json i c q fmt).1.map Chunk.index =
        List.range' i (process_and_send_json i c q fmt).1.length ∧
      (process_and_send_json i c q fmt).2.1 =
        i + (process_and_send_json i c q fmt).1.length) ∧
    (∀ (calls : List HandlerCall),
      (runCalls 0 calls).1.map Chunk.index =
        List.range (runCalls 0 calls).1.length ∧
      (runCalls 0 calls).2 = (runCalls 0 calls).1.length) ∧
    (∀ (co : Option String) (ro : Option Run) (i : Nat) (fmt d : String)
        (e : Bool),
      (((send_data_to_stream co ro i fmt d e).map StreamEnvelope.index).getD i)
        = i) := by
  refine ⟨process_text_content_indices, process_and_send_json_indices,
    fun calls => ?_, fun co ro i fmt d e => ?_⟩
  · obtain ⟨hmap, hidx⟩ := runCalls_indices calls 0
    refine ⟨?_, by omega⟩
    rw [hmap, List.range_eq_range']
  · cases co with
    | none => rfl
    | some cid =>
      cases ro with
      | none => rfl
      | some r => rfl

/-- C8: with no bound connection and no bound run, `send_data_to_stream`
performs no delivery (and raises nothing, being total); `invoke_async_funct`
with no bound run likewise dispatches nothing.  Neither method writes any
handler state. -/
theorem dispatch_c8_noop (co : Option String) (ro : Option Run)
    (i : Nat) (fmt d : String) (e : Bool) (fn : String)
    (hc : co = none) (hr : ro = none) :
    send_data_to_stream co ro i fmt d e = none ∧
    invoke_async_funct ro fn = none := by
  subst hc
  subst hr
  exact ⟨rfl, rfl⟩

/-- Witness for C8 at concrete arguments. -/
theorem dispatch_c8_noop_witness :
    send_data_to_stream none none 0 "text" "" false = none ∧
    invoke_async_funct none "async_fn" = none :=
  dispatch_c8_noop none none 0 "text" "" false "async_fn" rfl rfl

/-- C9: a function name advertised by some configured MCP client resolves to
a calling closure with no module-cache fetch; a name advertised by no client
makes `get_function` fail with the not-found error, logged and re-raised. -/
theorem get_function_c9_resolution (clients : List McpHttpClientEntry)
    (fn : String) :
    ((∃ cl ∈ clients, fn ∈ cl.tools) →
      (∃ cl ∈ clients, (get_function clients fn).1 = Except.ok ⟨cl.name, fn⟩) ∧
      ∀ m, FunctEffect.moduleCacheFetch m ∉ (get_function clients fn).2) ∧
    ((∀ cl ∈ clients, fn ∉ cl.tools) →
      (get_function clients fn).1 =
        Except.error ("Function " ++ fn ++ " not found in MCP tools") ∧
      (get_function clients fn).2 =
        [FunctEffect.logError ("Function " ++ fn ++ " not found in MCP tools")]) := by
  constructor
  · intro h
    cases hfind : clients.find? (fun client => client.tools.contains fn) with
    | none =>
      obtain ⟨cl, hcl, htool⟩ := h
      have := List.find?_eq_none.mp hfind cl hcl
      simp only [List.contains, List.elem_eq_mem, decide_eq_true_eq] at this
      exact absurd htool this
    | some cl =>
      refine ⟨⟨cl, List.mem_of_find?_eq_some hfind, ?_⟩, ?_⟩
      · simp only [get_function]
        rw [hfind]
      · intro m
        simp only [get_function]
        rw [hfind]
        simp
  · intro h
    have hfind : clients.find? (fun client => client.tools.contains fn) = none := by
      rw [List.find?_eq_none]
      intro cl hcl
      simp only [List.contains, List.elem_eq_mem, decide_eq_true_eq]
      exact h cl hcl
    constructor
    · simp only [get_function]
      rw [hfind]
    · simp only [get_function]
      rw [hfind]

/-- Witness for C9 on a registry advertising only `"foo"`: `"foo"` resolves,
`"baz"` fails with the not-found error. -/
theorem get_function_c9_witness :
    (∃ cl ∈ [(⟨"srv", ["foo"]⟩ : McpHttpClientEntry)],
      (get_function [⟨"srv", ["foo"]⟩] "foo").1 = Except.ok ⟨cl.name, "foo"⟩) ∧
    (get_function [⟨"srv", ["foo"]⟩] "baz").1 =
      Except.error ("Function " ++ "baz" ++ " not found in MCP tools") :=
  ⟨((get_function_c9_resolution [⟨"srv", ["foo"]⟩] "foo").1
      ⟨⟨"srv", ["foo"]⟩, by decide, by decide⟩).1,
    ((get_function_c9_resolution [⟨"srv", ["foo"]⟩] "baz").2 (by decide)).1⟩

end AIAgentHandler
